import Mathlib

/-!
Verification of the backtesting and confidence-scoring engine of the
AI-Powered Stock/ETF Signal Generation Platform.

The repository contains three variants of the engine:
  * `src/backtesting/engine.py`            (class `BacktestEngine`)
  * `src/backtesting/engine_vectorbt.py`   (class `BacktestEngineVBT`,
    its `run_market` / `calculate_confidence` bodies are line-for-line
    identical to `engine.py`)
  * `src/backtesting/app/engine.py`        (class `BacktestEngine`, a
    variant whose `calculate_confidence` omits the benchmark guard)

The embedding below models:
  * Python float scalars as `PyVal` — an exact-rational carrier plus the
    IEEE special values `nan` / `inf` / `-inf`, with Python's comparison,
    multiplication, division (raising `ZeroDivisionError` on a zero
    divisor) and two-argument `min` / `max` / `round` semantics;
  * the pandas/numpy pipeline of `run_market` (`pct_change().dropna()`,
    `cumprod`, `cummax`, `min`, `mean`, `std`) over exact rationals, with
    numpy's non-raising division (`0/0 = nan`) as `RVal` over the reals
    where a square root is involved;
  * the aliasing discipline of `BacktestEngine.__init__` /
    `_generate_signals` as an explicit store of data frames.
-/

/-- A Python float value: a finite value carried exactly as a rational,
or one of the IEEE special values produced by the engine's arithmetic. -/
inductive PyVal where
  | num (q : ℚ)
  | nan
  | inf
  | ninf
deriving DecidableEq, Repr

/-- Python `x < y` on floats: any comparison with `nan` is `False`. -/
def pyLt (x y : PyVal) : Bool :=
  match x, y with
  | .nan, _ => false
  | _, .nan => false
  | .num a, .num b => decide (a < b)
  | .num _, .inf => true
  | .num _, .ninf => false
  | .inf, .num _ => false
  | .ninf, .num _ => true
  | .inf, .inf => false
  | .inf, .ninf => false
  | .ninf, .inf => true
  | .ninf, .ninf => false

/-- Python `x <= y` on floats: any comparison with `nan` is `False`. -/
def pyLe (x y : PyVal) : Bool :=
  match x, y with
  | .nan, _ => false
  | _, .nan => false
  | .num a, .num b => decide (a ≤ b)
  | .num _, .inf => true
  | .num _, .ninf => false
  | .inf, .num _ => false
  | .ninf, .num _ => true
  | .inf, .inf => true
  | .inf, .ninf => false
  | .ninf, .inf => true
  | .ninf, .ninf => true

/-- Python float multiplication; `nan` propagates, `0 * inf = nan`. -/
def pyMul (x y : PyVal) : PyVal :=
  match x, y with
  | .nan, _ => .nan
  | _, .nan => .nan
  | .num a, .num b => .num (a * b)
  | .num a, .inf => if 0 < a then .inf else if a < 0 then .ninf else .nan
  | .num a, .ninf => if 0 < a then .ninf else if a < 0 then .inf else .nan
  | .inf, .num b => if 0 < b then .inf else if b < 0 then .ninf else .nan
  | .ninf, .num b => if 0 < b then .ninf else if b < 0 then .inf else .nan
  | .inf, .inf => .inf
  | .inf, .ninf => .ninf
  | .ninf, .inf => .ninf
  | .ninf, .ninf => .inf

/-- Python float division.  A divisor equal to `0.0` raises
`ZeroDivisionError` (modelled as `Except.error ()`), whatever the
dividend — including `nan / 0.0` and `inf / 0.0`.  Otherwise `nan`
propagates, a finite value divided by an infinity is `0.0`, and an
infinity divided by an infinity is `nan`. -/
def pyDiv (x y : PyVal) : Except Unit PyVal :=
  match x, y with
  | x, .num b =>
      if b = 0 then .error ()
      else
        match x with
        | .num a => .ok (.num (a / b))
        | .nan => .ok .nan
        | .inf => .ok (if 0 < b then .inf else .ninf)
        | .ninf => .ok (if 0 < b then .ninf else .inf)
  | .nan, _ => .ok .nan
  | _, .nan => .ok .nan
  | .num _, .inf => .ok (.num 0)
  | .num _, .ninf => .ok (.num 0)
  | .inf, .inf => .ok .nan
  | .inf, .ninf => .ok .nan
  | .ninf, .inf => .ok .nan
  | .ninf, .ninf => .ok .nan

/-- CPython's two-argument `max(a, b)`: keeps `a` unless `b > a`. -/
def pyMax (a b : PyVal) : PyVal := if pyLt a b then b else a

/-- CPython's two-argument `min(a, b)`: keeps `a` unless `b < a`. -/
def pyMin (a b : PyVal) : PyVal := if pyLt b a then b else a

/-- Round-half-to-even on an exact rational, as CPython's `round`. -/
def roundHalfEven (x : ℚ) : ℤ :=
  let n := ⌊x⌋
  let f := x - n
  if f < 1 / 2 then n
  else if 1 / 2 < f then n + 1
  else if n % 2 = 0 then n else n + 1

/-- Python `round(x, 2)`: rounds a finite float to two decimal places
(half-to-even); `nan` and the infinities pass through unchanged. -/
def pyRound2 : PyVal → PyVal
  | .num q => .num ((roundHalfEven (q * 100) : ℚ) / 100)
  | v => v

/-- `BacktestEngine.calculate_confidence` of `src/backtesting/engine.py`
(lines 135–164); `BacktestEngineVBT.calculate_confidence` of
`src/backtesting/engine_vectorbt.py` (lines 124–153) is textually the
same function.  The whole body runs inside `try`: any raising division
falls to the `except` branch returning `0.0`.  The benchmark guard
returns `0.0` when the market Sharpe or CAGR is `<= 0`. -/
def calcConfidence (mlSharpe mlCagr mktSharpe mktCagr : PyVal) : PyVal :=
  if pyLe mktSharpe (.num 0) || pyLe mktCagr (.num 0) then .num 0
  else
    match pyDiv mlSharpe mktSharpe, pyDiv mlCagr mktCagr with
    | .ok r1, .ok r2 =>
        match pyDiv (pyMul r1 r2) (.num 2) with
        | .ok half =>
            let normalized := pyMul half (.num 100)
            pyRound2 (pyMax (.num 0) (pyMin normalized (.num 100)))
        | .error _ => .num 0
    | _, _ => .num 0

/-- `BacktestEngine.calculate_confidence` of
`src/backtesting/app/engine.py` (lines 122–132).  This variant has no
benchmark-positivity guard; the clamp is written
`min(max((raw / 2) * 100, 0), 100)` (max applied first), and any
raising division falls to the `except` branch returning `0.0`. -/
def calcConfidenceApp (mlSharpe mlCagr mktSharpe mktCagr : PyVal) : PyVal :=
  match pyDiv mlSharpe mktSharpe, pyDiv mlCagr mktCagr with
  | .ok r1, .ok r2 =>
      match pyDiv (pyMul r1 r2) (.num 2) with
      | .ok half =>
          let normalized := pyMul half (.num 100)
          pyRound2 (pyMin (pyMax normalized (.num 0)) (.num 100))
      | .error _ => .num 0
  | _, _ => .num 0

/-- `INITIAL_CAPITAL = 1_000_000` (identical in all engine classes). -/
def INITIAL_CAPITAL : ℚ := 1000000

/-- `TRADING_DAYS = 252` (identical in all engine classes). -/
def TRADING_DAYS : ℚ := 252

/-- `self.df["Close"].pct_change().dropna()` (run_market line 40): the
simple return `Close[i] / Close[i-1] - 1` for `i = 1 .. n-1`; `dropna`
removes the leading `NaN`, so the result has `n - 1` entries. -/
def pctChange (close : List ℚ) : List ℚ :=
  List.zipWith (fun prev cur => cur / prev - 1) close close.tail

/-- pandas `.cumprod()`: running product of the series. -/
def cumprod : List ℚ → List ℚ
  | [] => []
  | a :: t => a :: (cumprod t).map (a * ·)

/-- Lines 42–43 of `run_market`:
`equity = (1 + returns).cumprod(); equity = equity * INITIAL_CAPITAL`. -/
def runMarketEquity (close : List ℚ) : List ℚ :=
  (cumprod ((pctChange close).map (fun r => 1 + r))).map
    (fun e => e * INITIAL_CAPITAL)

/-- Helper for pandas `.cummax()`: running maximum after a seed. -/
def cummaxFrom (m : ℚ) : List ℚ → List ℚ
  | [] => []
  | a :: t => max m a :: cummaxFrom (max m a) t

/-- pandas `.cummax()`: running maximum of the series. -/
def cummax : List ℚ → List ℚ
  | [] => []
  | a :: t => a :: cummaxFrom a t

/-- `drawdown = (equity - equity.cummax()) / equity.cummax()`
(run_market line 46), elementwise. -/
def drawdownList (eq : List ℚ) : List ℚ :=
  List.zipWith (fun e m => (e - m) / m) eq (cummax eq)

/-- pandas `.min()` of a series: `none` (NaN) on the empty series. -/
def seriesMin : List ℚ → Option ℚ
  | [] => none
  | a :: t => some (t.foldl min a)

/-- `max_drawdown_pct = abs(drawdown.min()) * 100` (run_market line 57). -/
def maxDrawdownPct (eq : List ℚ) : Option ℚ :=
  (seriesMin (drawdownList eq)).map (fun m => |m| * 100)

/-- The only failure `run_market` can actually produce on short input:
positional indexing (`equity.iloc[0]`) into an empty series raises an
untyped `IndexError`.  No `InsufficientDataError` or `ValidationError`
class exists anywhere in the repository. -/
inductive PyErr where
  | indexError
deriving DecidableEq, Repr

/-- Lines 48–49 of `run_market`: `start_equity = equity.iloc[0]`,
`end_equity = equity.iloc[-1]`.  With fewer than two close rows the
returns series (hence the equity series) is empty and `iloc[0]` raises
`IndexError`. -/
def runMarketStartEnd (close : List ℚ) : Except PyErr (ℚ × ℚ) :=
  match runMarketEquity close with
  | [] => .error .indexError
  | a :: t => .ok (a, (a :: t).getLast (List.cons_ne_nil a t))

/-- `total_return_pct = (end_equity / start_equity - 1) * 100`
(run_market line 53). -/
def totalReturnPct (close : List ℚ) : Except PyErr ℚ :=
  (runMarketStartEnd close).map (fun p => (p.2 / p.1 - 1) * 100)

/-- `n_years = len(returns) / TRADING_DAYS` (run_market line 45). -/
def nYears (close : List ℚ) : ℚ :=
  ((pctChange close).length : ℚ) / TRADING_DAYS

/-- `entries = self.df["Signal"] == 1` (run_ml): a total elementwise
comparison — a signal value outside `{-1, 0, 1}` is silently neither an
entry nor an exit; no validation is performed anywhere. -/
def signalEntries (sig : List ℤ) : List Bool := sig.map (fun v => v == 1)

/-- `exits = self.df["Signal"] == -1` (run_ml). -/
def signalExits (sig : List ℤ) : List Bool := sig.map (fun v => v == -1)

/-- `cagr_pct` as `run_market` line 54 computes it:
`((end_equity / start_equity) ** (1 / n_years) - 1) * 100`, with real
exponentiation; `iloc[0]` / `iloc[-1]` are read off the (nonempty, under
the claims' hypotheses) equity series. -/
noncomputable def cagrPctCode (close : List ℚ) : ℝ :=
  let eq := runMarketEquity close
  ((((eq.getLastD 0 / eq.headI : ℚ)) : ℝ) ^
      ((1 : ℝ) / ((nYears close : ℚ) : ℝ)) - 1) * 100

/-- Modelled from the spec: the same CAGR with the exponent written as
`TRADING_DAYS / n_observations`, to be compared with the code's
`1 / n_years` form. -/
noncomputable def cagrPctSpecForm (close : List ℚ) : ℝ :=
  let eq := runMarketEquity close
  ((((eq.getLastD 0 / eq.headI : ℚ)) : ℝ) ^
      (((TRADING_DAYS : ℚ) : ℝ) / (((pctChange close).length : ℕ) : ℝ)) - 1) * 100

/-- A numpy float64 scalar: exact real carrier plus IEEE specials.
Unlike Python scalar division, numpy division never raises. -/
inductive RVal where
  | num (x : ℝ)
  | nan
  | inf
  | ninf

open Classical in
/-- numpy float64 division: total; `0 / 0 = nan`, `x / 0 = ±inf` for
`x ≠ 0` (a `RuntimeWarning`, not an exception), `nan` propagates. -/
noncomputable def npDiv (x y : RVal) : RVal :=
  match x, y with
  | .nan, _ => .nan
  | _, .nan => .nan
  | .num a, .num b =>
      if b = 0 then (if a = 0 then .nan else if 0 < a then .inf else .ninf)
      else .num (a / b)
  | .num _, .inf => .num 0
  | .num _, .ninf => .num 0
  | .inf, .num b => if 0 ≤ b then .inf else .ninf
  | .ninf, .num b => if 0 ≤ b then .ninf else .inf
  | .inf, .inf => .nan
  | .inf, .ninf => .nan
  | .ninf, .inf => .nan
  | .ninf, .ninf => .nan

open Classical in
/-- numpy float64 multiplication: `nan` propagates, `0 * inf = nan`. -/
noncomputable def npMul (x y : RVal) : RVal :=
  match x, y with
  | .nan, _ => .nan
  | _, .nan => .nan
  | .num a, .num b => .num (a * b)
  | .num a, .inf => if 0 < a then .inf else if a < 0 then .ninf else .nan
  | .num a, .ninf => if 0 < a then .ninf else if a < 0 then .inf else .nan
  | .inf, .num b => if 0 < b then .inf else if b < 0 then .ninf else .nan
  | .ninf, .num b => if 0 < b then .ninf else if b < 0 then .inf else .nan
  | .inf, .inf => .inf
  | .inf, .ninf => .ninf
  | .ninf, .inf => .ninf
  | .ninf, .ninf => .inf

/-- Arithmetic mean of a rational series. -/
def meanQ (l : List ℚ) : ℚ := l.sum / l.length

/-- pandas `Series.mean()`: `NaN` on the empty series. -/
noncomputable def pdMean (l : List ℚ) : RVal :=
  if l = [] then .nan else .num ((meanQ l : ℚ) : ℝ)

/-- Sample variance with `ddof = 1` (the pandas default). -/
def sampleVarQ (l : List ℚ) : ℚ :=
  (l.map (fun x => (x - meanQ l) ^ 2)).sum / ((l.length : ℚ) - 1)

/-- pandas `Series.std()`: `ddof = 1`, `NaN` for fewer than two
samples, otherwise the square root of the sample variance. -/
noncomputable def pdStd (l : List ℚ) : RVal :=
  if l.length ≤ 1 then .nan else .num (Real.sqrt ((sampleVarQ l : ℚ) : ℝ))

/-- `sharpe_ratio = (returns.mean() / returns.std()) * np.sqrt(TRADING_DAYS)`
(run_market line 56) — note: no guard of any kind around the division. -/
noncomputable def sharpeRatioCode (returns : List ℚ) : RVal :=
  npMul (npDiv (pdMean returns) (pdStd returns)) (.num (Real.sqrt 252))

/-- The columns of `self.df` that the engine reads or writes: the close
prices, the optional `Signal` column and the two SMA columns that
`_generate_signals` may add (rolling means hold `NaN` — `none` — for
the first `window - 1` rows). -/
structure DataFrame where
  close : List ℚ
  signal : Option (List ℤ)
  smaShort : Option (List (Option ℚ))
  smaLong : Option (List (Option ℚ))
deriving DecidableEq, Repr

/-- The empty frame (used as lookup default; never reached under the
stated hypotheses). -/
def emptyDF : DataFrame := ⟨[], none, none, none⟩

/-- pandas `Series.rolling(window=w).mean()`: `NaN` (`none`) until `w`
observations are available, then the mean of the trailing window. -/
def rollingMean (w : ℕ) (l : List ℚ) : List (Option ℚ) :=
  (List.range l.length).map (fun i =>
    if w ≤ i + 1 then some (((l.drop (i + 1 - w)).take w).sum / (w : ℚ))
    else none)

/-- `BacktestEngine._generate_signals` (`src/backtesting/engine.py`
lines 21–35): if a `Signal` column exists, do nothing; otherwise write
`SMA_Short` (window 20), `SMA_Long` (window 50) and a `Signal` column
that is `1` where `SMA_Short > SMA_Long`, `-1` where
`SMA_Short <= SMA_Long`, and stays `0` where either SMA is `NaN` (both
pandas comparisons with `NaN` are false). -/
def generateSignals (df : DataFrame) : DataFrame :=
  if df.signal.isSome then df
  else
    let ss := rollingMean 20 df.close
    let sl := rollingMean 50 df.close
    { df with
      smaShort := some ss
      smaLong := some sl
      signal := some (List.zipWith (fun a b =>
        match a, b with
        | some x, some y => if y < x then (1 : ℤ) else -1
        | _, _ => 0) ss sl) }

/-- `BacktestEngine.__init__` (`engine.py` lines 11–12, `app/engine.py`
lines 19–21): `self.df = df.copy()`.  Object identities are modelled as
addresses into a store of frames: the constructor allocates a fresh
address holding a copy of the caller's frame and the engine keeps that
fresh address. -/
def engineInit (st : List DataFrame) (caller : ℕ) : List DataFrame × ℕ :=
  (st ++ [st.getD caller emptyDF], st.length)

/-- One in-place `_generate_signals` mutation (triggered by `run_ml`
when the `Signal` column is missing): rewrites the frame at the
engine's own address only. -/
def generateSignalsStep (st : List DataFrame) (self : ℕ) : List DataFrame :=
  st.set self (generateSignals (st.getD self emptyDF))

/-- A divisor that fails the `<= 0` guard cannot raise: division by it
always succeeds. -/
theorem pyDiv_ok_of_not_le_zero (y : PyVal) (hy : pyLe y (.num 0) = false)
    (x : PyVal) : ∃ v, pyDiv x y = .ok v := by
  cases y with
  | num b =>
      have hb : ¬ b ≤ 0 := by simpa [pyLe] using hy
      have hb0 : b ≠ 0 := fun h => hb (le_of_eq h)
      cases x with
      | num a => exact ⟨.num (a / b), by simp [pyDiv, hb0]⟩
      | nan => exact ⟨.nan, by simp [pyDiv, hb0]⟩
      | inf => exact ⟨if 0 < b then .inf else .ninf, by simp [pyDiv, hb0]⟩
      | ninf => exact ⟨if 0 < b then .ninf else .inf, by simp [pyDiv, hb0]⟩
  | nan =>
      cases x with
      | num a => exact ⟨.nan, by simp [pyDiv]⟩
      | nan => exact ⟨.nan, by simp [pyDiv]⟩
      | inf => exact ⟨.nan, by simp [pyDiv]⟩
      | ninf => exact ⟨.nan, by simp [pyDiv]⟩
  | inf =>
      cases x with
      | num a => exact ⟨.num 0, by simp [pyDiv]⟩
      | nan => exact ⟨.nan, by simp [pyDiv]⟩
      | inf => exact ⟨.nan, by simp [pyDiv]⟩
      | ninf => exact ⟨.nan, by simp [pyDiv]⟩
  | ninf => simp [pyLe] at hy

/-- Division by the literal `2.0` never raises. -/
theorem pyDiv_two_ok (x : PyVal) : ∃ v, pyDiv x (.num 2) = .ok v := by
  cases x with
  | num a => exact ⟨.num (a / 2), by norm_num [pyDiv]⟩
  | nan => exact ⟨.nan, by norm_num [pyDiv]⟩
  | inf => exact ⟨.inf, by norm_num [pyDiv]⟩
  | ninf => exact ⟨.ninf, by norm_num [pyDiv]⟩

/-- Round-half-to-even fixes the integers. -/
theorem roundHalfEven_intCast (n : ℤ) : roundHalfEven (n : ℚ) = n := by
  simp [roundHalfEven, Int.floor_intCast]

/-- Round-half-to-even stays inside an integer interval `[0, M]`. -/
theorem roundHalfEven_mem (x : ℚ) (M : ℤ) (h0 : 0 ≤ x) (hM : x ≤ M) :
    0 ≤ roundHalfEven x ∧ roundHalfEven x ≤ M := by
  have hfl : (0 : ℤ) ≤ ⌊x⌋ := by
    rw [Int.le_floor]; exact_mod_cast h0
  have hfu : ⌊x⌋ ≤ M := by
    have h : (⌊x⌋ : ℚ) ≤ (M : ℚ) := le_trans (Int.floor_le x) hM
    exact_mod_cast h
  have hstep : ¬ (x - (⌊x⌋ : ℚ) < 1 / 2) → ⌊x⌋ < M := by
    intro h1
    have hx : (⌊x⌋ : ℚ) + 1 / 2 ≤ x := by linarith [not_lt.mp h1]
    have h2 : (⌊x⌋ : ℚ) < (M : ℚ) := by linarith
    exact_mod_cast h2
  simp only [roundHalfEven]
  split_ifs with h1 h2 h3
  · exact ⟨hfl, hfu⟩
  · have := hstep h1
    omega
  · exact ⟨hfl, hfu⟩
  · have := hstep h1
    omega

/-- CPython's `min` agrees with the lattice `min` on finite floats. -/
theorem pyMin_num (a b : ℚ) : pyMin (.num a) (.num b) = .num (min a b) := by
  by_cases h : b < a
  · simp [pyMin, pyLt, h, min_eq_right h.le]
  · simp [pyMin, pyLt, h, min_eq_left (not_lt.mp h)]

/-- CPython's `max` agrees with the lattice `max` on finite floats. -/
theorem pyMax_num (a b : ℚ) : pyMax (.num a) (.num b) = .num (max a b) := by
  by_cases h : a < b
  · simp [pyMax, pyLt, h, max_eq_right h.le]
  · simp [pyMax, pyLt, h, max_eq_left (not_lt.mp h)]

/-- Evaluation of `round(q, 2)` when `q * 100` is an integer. -/
theorem pyRound2_eval (q : ℚ) (n : ℤ) (h : q * 100 = (n : ℚ)) :
    pyRound2 (.num q) = .num ((n : ℚ) / 100) := by
  simp [pyRound2, h, roundHalfEven_intCast]

/-- The clamp-then-round tail of `engine.py`'s `calculate_confidence`
(`max(0.0, min(normalized, 100.0))` followed by `round(·, 2)`) sends
every float — `nan` and infinities included — to a finite value in
`[0, 100]`. -/
theorem clamp_round_mem (v : PyVal) :
    ∃ q : ℚ, pyRound2 (pyMax (.num 0) (pyMin v (.num 100))) = .num q ∧
      0 ≤ q ∧ q ≤ 100 := by
  have hr : ∀ q0 : ℚ, 0 ≤ q0 → q0 ≤ 100 →
      ∃ q : ℚ, pyRound2 (.num q0) = .num q ∧ 0 ≤ q ∧ q ≤ 100 := by
    intro q0 h0 h1
    have hb := roundHalfEven_mem (q0 * 100) 10000 (by positivity)
      (by push_cast; linarith)
    refine ⟨(roundHalfEven (q0 * 100) : ℚ) / 100, by simp [pyRound2], ?_, ?_⟩
    · have h2 : (0 : ℚ) ≤ (roundHalfEven (q0 * 100) : ℚ) := by exact_mod_cast hb.1
      positivity
    · have h2 : (roundHalfEven (q0 * 100) : ℚ) ≤ 10000 := by exact_mod_cast hb.2
      linarith
  cases v with
  | num q0 =>
      rw [pyMin_num, pyMax_num]
      exact hr _ (le_max_left 0 _) (max_le (by norm_num) (min_le_right q0 100))
  | nan =>
      refine ⟨0, ?_, le_refl 0, by norm_num⟩
      have h : pyMax (.num 0) (pyMin .nan (.num 100)) = .num 0 := by
        simp [pyMin, pyMax, pyLt]
      rw [h, pyRound2_eval 0 0 (by norm_num)]
      norm_num
  | inf =>
      refine ⟨100, ?_, by norm_num, le_refl 100⟩
      have h : pyMax (.num 0) (pyMin .inf (.num 100)) = .num 100 := by
        simp [pyMin, pyMax, pyLt]
      rw [h, pyRound2_eval 100 10000 (by norm_num)]
      norm_num
  | ninf =>
      refine ⟨0, ?_, le_refl 0, by norm_num⟩
      have h : pyMax (.num 0) (pyMin .ninf (.num 100)) = .num 0 := by
        simp [pyMin, pyMax, pyLt]
      rw [h, pyRound2_eval 0 0 (by norm_num)]
      norm_num
/-- C2 counterexample: the `app/engine.py` variant has no benchmark
guard.  With benchmark `cagr_pct == -5.0` (the spec's own example) and a
strategy that equally has `cagr_pct == -5.0`, the two negative CAGRs
cancel and the variant returns `50.0`, not `0.0`. -/
theorem confidence_app_negative_benchmark_counterexample :
    calcConfidenceApp (.num 1) (.num (-5)) (.num 1) (.num (-5)) = .num 50 := by
  norm_num [calcConfidenceApp, pyDiv, pyMul, pyLe, pyLt, pyMin, pyMax,
    pyRound2, roundHalfEven]

/-- C2 (amended): in `engine.py` and `engine_vectorbt.py` (whose
`calculate_confidence` is the same function, `calcConfidence` here) a
benchmark Sharpe `<= 0` or benchmark CAGR `<= 0` makes the score `0.0`
regardless of the strategy metrics; the `app/engine.py` variant lacks
this guard. -/
theorem confidence_benchmark_guard (a b : PyVal) (s c : ℚ)
    (h : s ≤ 0 ∨ c ≤ 0) : calcConfidence a b (.num s) (.num c) = .num 0 := by
  rcases h with h | h
  · simp [calcConfidence, pyLe, h]
  · simp [calcConfidence, pyLe, h]

/-- Witness for the amended C2 guard at benchmark CAGR `-5.0`. -/
theorem confidence_benchmark_guard_witness :
    ((1 : ℚ) ≤ 0 ∨ (-5 : ℚ) ≤ 0) ∧
      calcConfidence (.num 1) (.num 1) (.num 1) (.num (-5)) = .num 0 :=
  ⟨Or.inr (by norm_num),
    confidence_benchmark_guard (.num 1) (.num 1) 1 (-5) (Or.inr (by norm_num))⟩

/-- C3: with a positive benchmark, a strategy that ties the benchmark on
Sharpe and CAGR scores exactly `50.00`, and a strategy that exactly
doubles both scores exactly `100.00` (clamped) — in the
`engine.py`/`engine_vectorbt.py` variant and in the `app/engine.py`
variant alike. -/
theorem confidence_calibration (s c : ℚ) (hs : 0 < s) (hc : 0 < c) :
    calcConfidence (.num s) (.num c) (.num s) (.num c) = .num 50 ∧
    calcConfidence (.num (2 * s)) (.num (2 * c)) (.num s) (.num c) = .num 100 ∧
    calcConfidenceApp (.num s) (.num c) (.num s) (.num c) = .num 50 ∧
    calcConfidenceApp (.num (2 * s)) (.num (2 * c)) (.num s) (.num c) = .num 100 := by
  have hs0 : s ≠ 0 := ne_of_gt hs
  have hc0 : c ≠ 0 := ne_of_gt hc
  have hdivs : pyDiv (.num s) (.num s) = .ok (.num 1) := by
    simp [pyDiv, hs0, div_self]
  have hdivc : pyDiv (.num c) (.num c) = .ok (.num 1) := by
    simp [pyDiv, hc0, div_self]
  have hdivs2 : pyDiv (.num (2 * s)) (.num s) = .ok (.num 2) := by
    simp [pyDiv, hs0, mul_div_assoc, div_self hs0]
  have hdivc2 : pyDiv (.num (2 * c)) (.num c) = .ok (.num 2) := by
    simp [pyDiv, hc0, mul_div_assoc, div_self hc0]
  have hg : (pyLe (.num s) (.num 0) || pyLe (.num c) (.num 0)) = false := by
    simp [pyLe, hs.not_le, hc.not_le]
  have tie : pyDiv (pyMul (.num 1) (.num 1)) (.num 2) = .ok (.num (1 / 2)) := by
    norm_num [pyMul, pyDiv]
  have dbl : pyDiv (pyMul (.num 2) (.num 2)) (.num 2) = .ok (.num 2) := by
    norm_num [pyMul, pyDiv]
  have tie2 : pyMul (.num ((1 : ℚ) / 2)) (.num 100) = .num 50 := by
    norm_num [pyMul]
  have dbl2 : pyMul (.num (2 : ℚ)) (.num 100) = .num 200 := by
    norm_num [pyMul]
  have clamp50 : pyRound2 (pyMax (.num 0) (pyMin (.num 50) (.num 100))) = .num 50 := by
    rw [pyMin_num, pyMax_num]
    norm_num
    rw [pyRound2_eval 50 5000 (by norm_num)]
    norm_num
  have clamp200 : pyRound2 (pyMax (.num 0) (pyMin (.num 200) (.num 100))) = .num 100 := by
    rw [pyMin_num, pyMax_num]
    norm_num
    rw [pyRound2_eval 100 10000 (by norm_num)]
    norm_num
  have clamp50a : pyRound2 (pyMin (pyMax (.num 50) (.num 0)) (.num 100)) = .num 50 := by
    rw [pyMax_num, pyMin_num]
    norm_num
    rw [pyRound2_eval 50 5000 (by norm_num)]
    norm_num
  have clamp200a : pyRound2 (pyMin (pyMax (.num 200) (.num 0)) (.num 100)) = .num 100 := by
    rw [pyMax_num, pyMin_num]
    norm_num
    rw [pyRound2_eval 100 10000 (by norm_num)]
    norm_num
  refine ⟨?_, ?_, ?_, ?_⟩
  · simp only [calcConfidence, hg, Bool.false_eq_true, if_false, hdivs, hdivc, tie, tie2]
    exact clamp50
  · simp only [calcConfidence, hg, Bool.false_eq_true, if_false, hdivs2, hdivc2, dbl, dbl2]
    exact clamp200
  · simp only [calcConfidenceApp, hdivs, hdivc, tie, tie2]
    exact clamp50a
  · simp only [calcConfidenceApp, hdivs2, hdivc2, dbl, dbl2]
    exact clamp200a
/-- Witness for the C3 calibration points at benchmark Sharpe 1, CAGR 1. -/
theorem confidence_calibration_witness :
    (0 < (1 : ℚ)) ∧ calcConfidence (.num 1) (.num 1) (.num 1) (.num 1) = .num 50 :=
  ⟨by norm_num, (confidence_calibration 1 1 (by norm_num) (by norm_num)).1⟩

/-- C4 counterexample: the `app/engine.py` variant propagates a `nan`
strategy Sharpe to a `nan` confidence score — not a float in `[0, 100]`
— because its clamp `min(max(·, 0), 100)` keeps `nan` (both comparisons
with `nan` are false and `max`/`min` then keep their first argument). -/
theorem confidence_app_nan_counterexample :
    calcConfidenceApp .nan (.num 1) (.num 1) (.num 1) = .nan := by
  norm_num [calcConfidenceApp, pyDiv, pyMul, pyLt, pyMin, pyMax, pyRound2]

/-- C4 (amended): the `engine.py`/`engine_vectorbt.py` variant never
raises and always returns a finite value in `[0, 100]` (rounded), even
on `nan`/infinite/zero inputs, and both variants return `0.0` when the
division raises (`ZeroDivisionError` on a zero benchmark Sharpe); but
the `app/engine.py` variant does not keep `nan` inside `[0, 100]`. -/
theorem confidence_total_range (a b s c : PyVal) :
    (∃ q : ℚ, calcConfidence a b s c = .num q ∧ 0 ≤ q ∧ q ≤ 100) ∧
    calcConfidence a b (.num 0) c = .num 0 ∧
    calcConfidenceApp a b (.num 0) c = .num 0 := by
  refine ⟨?_, ?_, ?_⟩
  · by_cases hg : (pyLe s (.num 0) || pyLe c (.num 0)) = true
    · refine ⟨0, ?_, le_refl 0, by norm_num⟩
      simp [calcConfidence, hg]
    · have hgf : (pyLe s (.num 0) || pyLe c (.num 0)) = false := by
        revert hg
        cases pyLe s (.num 0) || pyLe c (.num 0) <;> simp
      have hparts := Bool.or_eq_false_iff.mp hgf
      obtain ⟨r1, hr1⟩ := pyDiv_ok_of_not_le_zero s hparts.1 a
      obtain ⟨r2, hr2⟩ := pyDiv_ok_of_not_le_zero c hparts.2 b
      obtain ⟨h3, hh3⟩ := pyDiv_two_ok (pyMul r1 r2)
      obtain ⟨q, hq, hq0, hq100⟩ := clamp_round_mem (pyMul h3 (.num 100))
      refine ⟨q, ?_, hq0, hq100⟩
      simp only [calcConfidence, hgf, Bool.false_eq_true, if_false, hr1, hr2, hh3]
      exact hq
  · simp [calcConfidence, pyLe]
  · rcases h2 : pyDiv b c with e | v <;> cases a <;>
      simp [calcConfidenceApp, pyDiv, h2]
/-- `cumprod` preserves length. -/
theorem cumprod_length (l : List ℚ) : (cumprod l).length = l.length := by
  induction l with
  | nil => rfl
  | cons a t ih => simp [cumprod, ih]

/-- `getD` through `map` at an in-range index. -/
theorem getD_map_of_lt (l : List ℚ) (f : ℚ → ℚ) :
    ∀ i, i < l.length → (l.map f).getD i 0 = f (l.getD i 0) := by
  induction l with
  | nil => intro i hi; simp at hi
  | cons a t ih =>
      intro i hi
      cases i with
      | zero => simp
      | succ j => simpa using ih j (by simpa using hi)

/-- `1 + (cur / prev - 1)` is the plain price ratio: the factor list the
benchmark equity multiplies up is the list of close-price ratios. -/
theorem map_one_add_pctChange (l : List ℚ) :
    (pctChange l).map (fun r => 1 + r) =
      List.zipWith (fun prev cur => cur / prev) l l.tail := by
  rw [pctChange, List.map_zipWith]
  congr 1
  funext prev cur
  ring

/-- Telescoping: the running product of consecutive-close ratios at
index `i` is `Close[i+1] / Close[0]`. -/
theorem cumprod_ratios_getD :
    ∀ l : List ℚ, (∀ x ∈ l, x ≠ 0) → ∀ i, i + 1 < l.length →
      (cumprod (List.zipWith (fun prev cur => cur / prev) l l.tail)).getD i 0 =
        l.getD (i + 1) 0 / l.getD 0 0 := by
  intro l
  induction l with
  | nil => intro _ i hi; simp at hi
  | cons a t ih =>
      intro hne i hi
      cases t with
      | nil => simp at hi
      | cons b t' =>
          have ha : a ≠ 0 := hne a (by simp)
          have hb : b ≠ 0 := hne b (by simp)
          have hlist :
              List.zipWith (fun prev cur => cur / prev) (a :: b :: t') (a :: b :: t').tail
                = (b / a) :: List.zipWith (fun prev cur => cur / prev) (b :: t') t' := by
            simp
          cases i with
          | zero => simp [hlist, cumprod]
          | succ j =>
              have hj : j + 1 < (b :: t').length := by
                simpa using Nat.lt_of_succ_lt_succ hi
              have hjlen :
                  j < (cumprod (List.zipWith (fun prev cur => cur / prev) (b :: t') t')).length := by
                rw [cumprod_length, List.length_zipWith]
                simp at hj ⊢
                omega
              have ihj := ih (fun x hx => hne x (List.mem_cons_of_mem a hx)) j
                (by simpa using hj)
              rw [hlist, cumprod]
              simp only [List.getD_cons_succ]
              rw [getD_map_of_lt _ _ j hjlen]
              simp only [List.tail_cons] at ihj
              rw [ihj]
              simp only [List.getD_cons_succ, List.getD_cons_zero]
              field_simp
              ring

/-- C1 counterexample: on the valid two-row `PriceSeries` with closes
`[100, 200]`, `run_market`'s equity series is the single point
`[2000000]` — not one point per `PriceSeries` date, and its first value
is `2 * INITIAL_CAPITAL`, not `INITIAL_CAPITAL`: `pct_change().dropna()`
drops the first date before the cumulative product is taken. -/
theorem benchmark_equity_counterexample :
    runMarketEquity [100, 200] = [2000000] := by
  norm_num [runMarketEquity, pctChange, cumprod, INITIAL_CAPITAL]

/-- C1 (amended): for a valid `PriceSeries` (all closes positive) the
benchmark equity has one point per date **except the first** (length
`n - 1`), and satisfies the shifted scalar-multiple law
`equity[i] = INITIAL_CAPITAL * Close[i+1] / Close[0]`; in particular
`equity[0] = INITIAL_CAPITAL * Close[1] / Close[0]`, which equals
`INITIAL_CAPITAL` only when `Close[1] = Close[0]`. -/
theorem benchmark_equity_closed_form (close : List ℚ)
    (hpos : ∀ x ∈ close, 0 < x) :
    (runMarketEquity close).length = close.length - 1 ∧
    ∀ i, i + 1 < close.length →
      (runMarketEquity close).getD i 0 =
        INITIAL_CAPITAL * (close.getD (i + 1) 0 / close.getD 0 0) := by
  have hne : ∀ x ∈ close, x ≠ 0 := fun x hx => (hpos x hx).ne'
  constructor
  · rw [runMarketEquity, List.length_map, cumprod_length, List.length_map,
      pctChange, List.length_zipWith, List.length_tail]
    omega
  · intro i hi
    rw [runMarketEquity, map_one_add_pctChange]
    have hlen :
        i < (cumprod (List.zipWith (fun prev cur => cur / prev) close close.tail)).length := by
      rw [cumprod_length, List.length_zipWith, List.length_tail]
      omega
    rw [getD_map_of_lt _ _ i hlen, cumprod_ratios_getD close hne i hi]
    ring

/-- Witness for the amended C1 law on the closes `[100, 200]`. -/
theorem benchmark_equity_closed_form_witness :
    (∀ x ∈ [(100 : ℚ), 200], 0 < x) ∧
      (runMarketEquity [100, 200]).length = [(100 : ℚ), 200].length - 1 := by
  have hpos : ∀ x ∈ [(100 : ℚ), 200], 0 < x := by
    intro x hx
    rcases List.mem_cons.mp hx with rfl | hx'
    · norm_num
    · rcases List.mem_cons.mp hx' with rfl | hx''
      · norm_num
      · simp at hx''
  exact ⟨hpos, (benchmark_equity_closed_form [100, 200] hpos).1⟩
/-- C7 counterexample: a one-row `PriceSeries` makes `run_market` fail
with an (untyped) `IndexError` at `equity.iloc[0]` — not an
`InsufficientDataError` — and a signal value `2` (outside `{-1, 0, 1}`)
is processed without any error at all: it is simply neither an entry
nor an exit.  Neither `ValidationError` nor `InsufficientDataError`
exists anywhere in the repository. -/
theorem typed_errors_counterexample :
    runMarketStartEnd [100] = .error .indexError ∧
    signalEntries [2] = [false] ∧ signalExits [2] = [false] := by
  refine ⟨?_, by simp [signalEntries], by simp [signalExits]⟩
  simp [runMarketStartEnd, runMarketEquity, pctChange, cumprod]

/-- C7 (amended): the simulators raise no typed error.  `run_market`
reaches an untyped `IndexError` exactly when the `PriceSeries` has
fewer than 2 rows, and the signal-to-entries/exits translation is a
total elementwise comparison, so out-of-range signal values are
silently treated as neither entry nor exit rather than rejected. -/
theorem no_typed_validation_errors :
    (∀ close : List ℚ,
        runMarketStartEnd close = .error .indexError ↔ close.length < 2) ∧
    (∀ sig : List ℤ, (signalEntries sig).length = sig.length ∧
        (signalExits sig).length = sig.length) := by
  constructor
  · intro close
    have hlen : (runMarketEquity close).length = close.length - 1 := by
      rw [runMarketEquity, List.length_map, cumprod_length, List.length_map,
        pctChange, List.length_zipWith, List.length_tail]
      omega
    constructor
    · intro h
      rcases heq : runMarketEquity close with _ | ⟨a, t⟩
      · have h0 : close.length - 1 = 0 := by rw [← hlen, heq]; rfl
        omega
      · rw [runMarketStartEnd, heq] at h
        simp at h
    · intro h
      have h0 : runMarketEquity close = [] := by
        have : (runMarketEquity close).length = 0 := by omega
        exact List.length_eq_zero.mp this
      rw [runMarketStartEnd, h0]
  · intro sig
    exact ⟨by simp [signalEntries], by simp [signalExits]⟩

/-- C8: the CAGR the code reports, with exponent `1 / n_years` and
`n_years = len(returns) / TRADING_DAYS`, coincides with the spec's
formula whose exponent is `TRADING_DAYS / n_observations`, whenever
there is at least one return sample. -/
theorem cagr_exponent_agreement (close : List ℚ)
    (h : 1 ≤ (pctChange close).length) :
    cagrPctCode close = cagrPctSpecForm close := by
  have hexp : (1 : ℝ) / ((nYears close : ℚ) : ℝ) =
      ((TRADING_DAYS : ℚ) : ℝ) / (((pctChange close).length : ℕ) : ℝ) := by
    rw [nYears, TRADING_DAYS]
    push_cast
    rw [one_div_div]
  rw [cagrPctCode, cagrPctSpecForm, hexp]

/-- Witness for C8 on the closes `[100, 110]` (one return sample). -/
theorem cagr_exponent_agreement_witness :
    1 ≤ (pctChange [(100 : ℚ), 110]).length ∧
      cagrPctCode [(100 : ℚ), 110] = cagrPctSpecForm [(100 : ℚ), 110] :=
  ⟨by norm_num [pctChange],
    cagr_exponent_agreement [(100 : ℚ), 110] (by norm_num [pctChange])⟩

/-- `cummaxFrom` preserves length. -/
theorem cummaxFrom_length (m : ℚ) :
    ∀ l : List ℚ, (cummaxFrom m l).length = l.length := by
  intro l
  induction l generalizing m with
  | nil => rfl
  | cons a t ih => simp [cummaxFrom, ih]

/-- Every drawdown entry against a positive running maximum lies in
`(-1, 0]`. -/
theorem drawdown_mem_bounds :
    ∀ (t : List ℚ) (m : ℚ), 0 < m → (∀ x ∈ t, 0 < x) →
      ∀ d ∈ List.zipWith (fun e mx => (e - mx) / mx) t (cummaxFrom m t),
        -1 < d ∧ d ≤ 0 := by
  intro t
  induction t with
  | nil => simp [cummaxFrom]
  | cons b t' ih =>
      intro m hm hpos d hd
      rw [cummaxFrom] at hd
      rcases List.mem_cons.mp hd with rfl | hd'
      · have hb : 0 < b := hpos b (by simp)
        have hmb : 0 < max m b := lt_of_lt_of_le hm (le_max_left m b)
        have hble : b ≤ max m b := le_max_right m b
        constructor
        · rw [lt_div_iff₀ hmb]
          linarith
        · exact div_nonpos_iff.mpr (Or.inr ⟨sub_nonpos.mpr hble, hmb.le⟩)
      · exact ih (max m b) (lt_of_lt_of_le hm (le_max_left m b))
          (fun x hx => hpos x (List.mem_cons_of_mem b hx)) d hd'

/-- A left fold of `min` stays inside `(lo, hi]` when the seed and all
elements do. -/
theorem foldl_min_bounds (lo hi : ℚ) :
    ∀ (l : List ℚ) (a : ℚ), lo < a → a ≤ hi → (∀ x ∈ l, lo < x ∧ x ≤ hi) →
      lo < l.foldl min a ∧ l.foldl min a ≤ hi := by
  intro l
  induction l with
  | nil => intro a h1 h2 _; exact ⟨h1, h2⟩
  | cons b t ih =>
      intro a h1 h2 hall
      rw [List.foldl_cons]
      refine ih (min a b) (lt_min h1 (hall b (by simp)).1)
        (le_trans (min_le_left a b) h2) ?_
      intro x hx
      exact hall x (List.mem_cons_of_mem b hx)

/-- C9: for every nonempty, everywhere-positive equity curve the
reported `max_drawdown_pct` is defined (not NaN) and lies in
`[0, 100]`. -/
theorem max_drawdown_bounds (eq : List ℚ) (hne : eq ≠ [])
    (hpos : ∀ x ∈ eq, 0 < x) :
    ∃ v, maxDrawdownPct eq = some v ∧ 0 ≤ v ∧ v ≤ 100 := by
  rcases eq with _ | ⟨a, t⟩
  · exact absurd rfl hne
  · have ha : 0 < a := hpos a (by simp)
    have hdd : drawdownList (a :: t) =
        ((a - a) / a) ::
          List.zipWith (fun e mx => (e - mx) / mx) t (cummaxFrom a t) := by
      rw [drawdownList, cummax]
      rfl
    have h0 : (a - a) / a = 0 := by rw [sub_self, zero_div]
    have hbnd := drawdown_mem_bounds t a ha
      (fun x hx => hpos x (List.mem_cons_of_mem a hx))
    have hmin := foldl_min_bounds (-1) 0
      (List.zipWith (fun e mx => (e - mx) / mx) t (cummaxFrom a t)) 0
      (by norm_num) (le_refl 0) hbnd
    refine ⟨|(List.zipWith (fun e mx => (e - mx) / mx) t
        (cummaxFrom a t)).foldl min 0| * 100, ?_, ?_, ?_⟩
    · rw [maxDrawdownPct, hdd, h0]
      simp [seriesMin]
    · positivity
    · have habs : |(List.zipWith (fun e mx => (e - mx) / mx) t
          (cummaxFrom a t)).foldl min 0| =
            -((List.zipWith (fun e mx => (e - mx) / mx) t
              (cummaxFrom a t)).foldl min 0) := abs_of_nonpos hmin.2
      rw [habs]
      linarith [hmin.1]

/-- Witness for C9 on the one-point equity curve `[1]`. -/
theorem max_drawdown_bounds_witness :
    (([(1 : ℚ)] ≠ []) ∧ ∀ x ∈ [(1 : ℚ)], 0 < x) ∧
      ∃ v, maxDrawdownPct [(1 : ℚ)] = some v ∧ 0 ≤ v ∧ v ≤ 100 := by
  have hpos : ∀ x ∈ [(1 : ℚ)], 0 < x := by
    intro x hx
    rcases List.mem_cons.mp hx with rfl | hx'
    · norm_num
    · simp at hx'
  exact ⟨⟨by simp, hpos⟩, max_drawdown_bounds [1] (by simp) hpos⟩
/-- `zipWith` of a constant list against its own tail. -/
theorem zipWith_replicate_offset (f : ℚ → ℚ → ℚ) (c : ℚ) :
    ∀ n : ℕ, List.zipWith f (c :: List.replicate n c) (List.replicate n c) =
      List.replicate n (f c c) := by
  intro n
  induction n with
  | zero => simp
  | succ j ih =>
      conv_lhs => rw [List.replicate_succ c j]
      rw [List.zipWith_cons_cons, ih, List.replicate_succ]

/-- The returns of a constant close series are all zero. -/
theorem pctChange_replicate (n : ℕ) (c : ℚ) (hc : c ≠ 0) :
    pctChange (List.replicate n c) = List.replicate (n - 1) 0 := by
  cases n with
  | zero => rfl
  | succ k =>
      rw [pctChange]
      have ht : (List.replicate (k + 1) c).tail = List.replicate k c := by simp
      rw [ht, List.replicate_succ c k, zipWith_replicate_offset]
      simp [div_self hc]

/-- `cumprod` fixes an all-ones list. -/
theorem cumprod_replicate_one :
    ∀ k : ℕ, cumprod (List.replicate k (1 : ℚ)) = List.replicate k 1 := by
  intro k
  induction k with
  | zero => rfl
  | succ j ih =>
      rw [List.replicate_succ (1 : ℚ) j, cumprod, ih]
      simp

/-- The benchmark equity of a constant close series is constantly
`INITIAL_CAPITAL` (over the `n - 1` retained dates). -/
theorem equity_replicate (n : ℕ) (c : ℚ) (hc : c ≠ 0) :
    runMarketEquity (List.replicate n c) =
      List.replicate (n - 1) INITIAL_CAPITAL := by
  rw [runMarketEquity, pctChange_replicate n c hc, List.map_replicate]
  norm_num
  rw [cumprod_replicate_one, List.map_replicate]
  norm_num

/-- The Sharpe computation on an all-zero returns series is `nan`: with
two or more samples the mean and the standard deviation are both `0.0`
and numpy's `0 / 0` is `nan`; with a single sample the `ddof = 1`
standard deviation is already `nan` and propagates. -/
theorem sharpe_nan_of_zero_returns (m : ℕ) (hm : 1 ≤ m) :
    sharpeRatioCode (List.replicate m (0 : ℚ)) = .nan := by
  have hne : List.replicate m (0 : ℚ) ≠ [] := by
    simp
    omega
  have hmean : meanQ (List.replicate m (0 : ℚ)) = 0 := by
    simp [meanQ]
  by_cases h2 : 2 ≤ m
  · have hvar : sampleVarQ (List.replicate m (0 : ℚ)) = 0 := by
      simp [sampleVarQ, hmean, List.map_replicate]
    have hstd : pdStd (List.replicate m (0 : ℚ)) = .num 0 := by
      rw [pdStd, if_neg (by simp; omega)]
      rw [hvar]
      norm_num
    rw [sharpeRatioCode, hstd, pdMean, if_neg hne, hmean]
    norm_num [npDiv, npMul]
  · have hm1 : m = 1 := by omega
    subst hm1
    have hstd : pdStd (List.replicate 1 (0 : ℚ)) = .nan := by
      rw [pdStd, if_pos (by simp)]
    rw [sharpeRatioCode, hstd, pdMean, if_neg hne, hmean]
    norm_num [npDiv, npMul]

/-- `cummaxFrom` is the identity on a constant list seeded with the
same constant. -/
theorem cummaxFrom_replicate_self (a : ℚ) :
    ∀ j : ℕ, cummaxFrom a (List.replicate j a) = List.replicate j a := by
  intro j
  induction j with
  | zero => rfl
  | succ i ih =>
      rw [List.replicate_succ a i, cummaxFrom, max_self, ih]

/-- `zipWith` over two equal-length constant lists. -/
theorem zipWith_replicate_same (f : ℚ → ℚ → ℚ) (a b : ℚ) :
    ∀ n : ℕ, List.zipWith f (List.replicate n a) (List.replicate n b) =
      List.replicate n (f a b) := by
  intro n
  induction n with
  | zero => simp
  | succ j ih =>
      rw [List.replicate_succ a j, List.replicate_succ b j,
        List.zipWith_cons_cons, ih]
      rfl

/-- Folding `min` over zeros from a zero seed stays zero. -/
theorem foldl_min_replicate_zero :
    ∀ j : ℕ, (List.replicate j (0 : ℚ)).foldl min 0 = 0 := by
  intro j
  induction j with
  | zero => rfl
  | succ i ih =>
      rw [List.replicate_succ (0 : ℚ) i, List.foldl_cons, min_self]
      exact ih

/-- The last element of a nonempty constant list. -/
theorem getLast_cons_replicate (a : ℚ) (k : ℕ)
    (h : (a :: List.replicate k a) ≠ []) :
    (a :: List.replicate k a).getLast h = a :=
  List.getLast_replicate_succ k a

/-- The drawdown of a constant positive equity curve is identically
zero, and its reported maximum is `0`. -/
theorem maxDrawdownPct_replicate (k : ℕ) (a : ℚ) (hk : 1 ≤ k) (ha : a ≠ 0) :
    maxDrawdownPct (List.replicate k a) = some 0 := by
  obtain ⟨j, rfl⟩ : ∃ j, k = j + 1 := ⟨k - 1, by omega⟩
  have hdd : drawdownList (List.replicate (j + 1) a) =
      List.replicate (j + 1) 0 := by
    rw [drawdownList]
    have hcm : cummax (List.replicate (j + 1) a) = List.replicate (j + 1) a := by
      rw [List.replicate_succ a j, cummax, cummaxFrom_replicate_self]
    rw [hcm, zipWith_replicate_same]
    simp [ha]
  rw [maxDrawdownPct, hdd, List.replicate_succ (0 : ℚ) j]
  simp [seriesMin, foldl_min_replicate_zero]

/-- C5 counterexample: on the spec's own scenario — ten rows of constant
close `100` — the analyzer's Sharpe ratio is `nan`, not `0`: the code
computes `returns.mean() / returns.std()` with no zero-variance guard,
and numpy evaluates `0.0 / 0.0` to `nan` (with a warning, no
exception). -/
theorem flat_series_sharpe_counterexample :
    sharpeRatioCode (pctChange (List.replicate 10 (100 : ℚ))) = .nan := by
  rw [pctChange_replicate 10 100 (by norm_num)]
  exact sharpe_nan_of_zero_returns 9 (by norm_num)

/-- C5 (amended): for every constant positive close series of at least
two rows the zero-variance returns make the reported Sharpe ratio `nan`
(silently — no exception), while `total_return_pct` and
`max_drawdown_pct` are exactly `0` as the spec states. -/
theorem flat_series_metrics (n : ℕ) (c : ℚ) (hn : 2 ≤ n) (hc : 0 < c) :
    sharpeRatioCode (pctChange (List.replicate n c)) = .nan ∧
    totalReturnPct (List.replicate n c) = .ok 0 ∧
    maxDrawdownPct (runMarketEquity (List.replicate n c)) = some 0 := by
  have hc0 : c ≠ 0 := hc.ne'
  have hcap : INITIAL_CAPITAL ≠ 0 := by norm_num [INITIAL_CAPITAL]
  refine ⟨?_, ?_, ?_⟩
  · rw [pctChange_replicate n c hc0]
    exact sharpe_nan_of_zero_returns (n - 1) (by omega)
  · obtain ⟨k, rfl⟩ : ∃ k, n = k + 2 := ⟨n - 2, by omega⟩
    have heq : runMarketEquity (List.replicate (k + 2) c) =
        INITIAL_CAPITAL :: List.replicate k INITIAL_CAPITAL := by
      rw [equity_replicate (k + 2) c hc0]
      simp [List.replicate_succ]
    have hse : runMarketStartEnd (List.replicate (k + 2) c) =
        .ok (INITIAL_CAPITAL,
          (INITIAL_CAPITAL :: List.replicate k INITIAL_CAPITAL).getLast
            (List.cons_ne_nil _ _)) := by
      rw [runMarketStartEnd, heq]
    rw [totalReturnPct, hse, getLast_cons_replicate]
    simp [Except.map, div_self hcap]
  · rw [equity_replicate n c hc0]
    exact maxDrawdownPct_replicate (n - 1) INITIAL_CAPITAL (by omega) hcap
/-- Witness for the amended C5 flat-series metrics at ten rows of
close `100`. -/
theorem flat_series_metrics_witness :
    ((2 ≤ 10) ∧ (0 : ℚ) < 100) ∧
      totalReturnPct (List.replicate 10 (100 : ℚ)) = .ok 0 :=
  ⟨⟨by norm_num, by norm_num⟩,
    (flat_series_metrics 10 100 (by norm_num) (by norm_num)).2.1⟩

/-- C10: constructing an engine copies the caller's frame to a fresh
address (`self.df = df.copy()`), and any number of `_generate_signals`
mutations (as triggered by `run_ml` when the `Signal` column is
missing) rewrite only the engine's own address: the caller's frame is
bit-for-bit unchanged.  `run_market` and `build_graphs` only read
`self.df`, so they are not store transitions at all. -/
theorem engine_private_copy (st : List DataFrame) (caller : ℕ)
    (h : caller < st.length) (k : ℕ) :
    (Nat.iterate (fun s => generateSignalsStep s (engineInit st caller).2) k
        (engineInit st caller).1)[caller]? = st[caller]? ∧
    (engineInit st caller).2 ≠ caller := by
  have hself : (engineInit st caller).2 = st.length := rfl
  have hne : st.length ≠ caller := by omega
  refine ⟨?_, by rw [hself]; omega⟩
  induction k with
  | zero =>
      show ((st ++ [st.getD caller emptyDF])[caller]? = st[caller]?)
      exact List.getElem?_append_left h
  | succ j ih =>
      rw [Function.iterate_succ_apply', generateSignalsStep, hself,
        List.getElem?_set_ne hne]
      exact ih

/-- Witness for C10: one engine over a one-frame store, one
`_generate_signals` mutation. -/
theorem engine_private_copy_witness :
    (0 < [emptyDF].length) ∧
      (Nat.iterate (fun s => generateSignalsStep s (engineInit [emptyDF] 0).2) 1
          (engineInit [emptyDF] 0).1)[0]? = [emptyDF][0]? :=
  ⟨by norm_num, (engine_private_copy [emptyDF] 0 (by norm_num) 1).1⟩
